import Mathlib

/-!
Shallow embedding of the rss-bluesky-bridge data layer and text utilities.

The embedding follows the Rust sources:
  * `src/lambda/src/text_utils.rs`   — grapheme-safe word-boundary truncation;
  * `src/lambda/src/models.rs`       — `ExecutionItem`, `RecordItem`;
  * `src/lambda/src/repository.rs`   — `DynamoRepository` operations;
  * `src/lambda/src/bin/update_dynamodb.rs` — the record-stage lambda's direct put.

Strings are Unicode text; a grapheme cluster (the unit `unicode_segmentation`
yields in the Rust code) is modelled as a `String` holding that cluster, so the
truncation function operates on `List String`, exactly the `Vec<&str>` the Rust
code builds from `summary.graphemes(true)`.  Trimming of leading/trailing
whitespace, performed in Rust on the string before segmentation, is modelled as
dropping whitespace-only clusters from both ends of the cluster list (leading
and trailing whitespace characters always form whitespace-only clusters).

The DynamoDB table is modelled as an explicit list of rows keyed by
(partition key, sort key); each stateful repository operation is a function
from table to table (plus its observable outputs), with the table client's
responses (unprocessed batch items, query pages) passed in as explicit
environment parameters.
-/

set_option linter.unusedVariables false

namespace RssBlueskyBridge

/-! ### Attribute values and table rows -/

/-- DynamoDB attribute value, as used by the sources: `AttributeValue::S`
strings and `AttributeValue::N` numbers (rendered from `i64`). -/
inductive AttrVal where
  | S : String → AttrVal
  | N : Int → AttrVal
deriving DecidableEq, Repr

/-- One row of the (single) DynamoDB table: composite primary key
`(PK, SK)` plus the remaining attributes as an association list. -/
structure Row where
  pk : String
  sk : String
  attrs : List (String × AttrVal)
deriving DecidableEq, Repr

/-- The composite primary key of a row. -/
def rowKey (r : Row) : String × String := (r.pk, r.sk)

/-- The table: a list of rows.  DynamoDB keeps at most one row per key;
`putRow` maintains this by replacing any row with the same key. -/
abbrev Table := List Row

/-- DynamoDB `PutItem`: unconditional put, replacing any existing row with the
same composite key (last write wins). -/
def putRow (r : Row) (t : Table) : Table :=
  t.filter (fun x => !(x.pk == r.pk && x.sk == r.sk)) ++ [r]

/-- Apply a sequence of puts in order. -/
def putRows (rs : List Row) (t : Table) : Table :=
  rs.foldl (fun acc r => putRow r acc) t

/-- Look up an attribute of a row by name. -/
def getAttr (r : Row) (name : String) : Option AttrVal :=
  (r.attrs.find? (fun p => p.1 == name)).map Prod.snd

/-- `SET name = v` on a single row: replace (or add) the named attribute,
leaving every other attribute unchanged. -/
def setAttr (r : Row) (name : String) (v : AttrVal) : Row :=
  { r with attrs := r.attrs.filter (fun p => !(p.1 == name)) ++ [(name, v)] }

/-! ### Data model (`models.rs`) -/

/-- `models.rs` `ExecutionItem`: the staging record for one feed item in one
pipeline run.  Field `_type` keeps the source's name. -/
structure ExecutionItem where
  execution_id : String
  guid : String
  title : Option String
  description : Option String
  link : Option String
  summary : Option String
  ttl : Option Int
  _type : Option String
  pub_date : Option String
deriving DecidableEq, Repr

/-- `models.rs` `RecordItem`: the permanent dedup marker. -/
structure RecordItem where
  guid : String
  _type : Option String
deriving DecidableEq, Repr

/-- Conditional attribute: the Rust builder pattern
`if let Some(x) = field { request.item(name, value) }`. -/
def optAttr (name : String) (v : Option AttrVal) : List (String × AttrVal) :=
  match v with
  | some a => [(name, a)]
  | none => []

/-- The row written for an `ExecutionItem` by `create_execution_item`
(repository.rs:37-74) and, identically field by field, by the per-item put
requests of `create_execution_items` (repository.rs:89-129):
`PK = execution_id`, `SK = guid`, then `title`, `description`, `link`,
`ttl` (numeric), `_TYPE` (the literal `"ExecutionItem"`, written only when the
item's `_type` is present), and `pub_date`.  The `summary` field is never
written. -/
def executionItemRow (item : ExecutionItem) : Row :=
  { pk := item.execution_id
    sk := item.guid
    attrs :=
      optAttr "title" (item.title.map AttrVal.S) ++
      optAttr "description" (item.description.map AttrVal.S) ++
      optAttr "link" (item.link.map AttrVal.S) ++
      optAttr "ttl" (item.ttl.map AttrVal.N) ++
      optAttr "_TYPE" (item._type.map (fun _ => AttrVal.S "ExecutionItem")) ++
      optAttr "pub_date" (item.pub_date.map AttrVal.S) }

/-- `create_execution_item` (repository.rs:37-74): a single unconditional put
of the item's row. -/
def create_execution_item (item : ExecutionItem) (t : Table) : Table :=
  putRow (executionItemRow item) t

/-! ### Text truncation (`text_utils.rs`) -/

/-- A grapheme cluster made entirely of whitespace characters; `str::trim`
removes exactly such clusters from the ends of the string. -/
def isWsGrapheme (g : String) : Bool :=
  !g.isEmpty && g.toList.all Char.isWhitespace

/-- Trimming leading and trailing whitespace, on the grapheme-cluster list. -/
def trimGraphemes (l : List String) : List String :=
  ((l.dropWhile isWsGrapheme).reverse.dropWhile isWsGrapheme).reverse

/-- Rust's `Iterator::rposition`: the index of the last element satisfying
`p`, or `none`. -/
def rposition (p : α → Bool) : List α → Option Nat
  | [] => none
  | a :: as =>
    match rposition p as with
    | some i => some (i + 1)
    | none => if p a then some 0 else none

/-- The cut step of `truncate_to_word` (text_utils.rs:16-21): if the last
single-space cluster sits at an index greater than 0, truncate to that index;
otherwise leave the prefix unchanged. -/
def cutAtLastSpace (l : List String) : List String :=
  match rposition (fun g => g == " ") l with
  | some i => if 0 < i then l.take i else l
  | none => l

/-- The trailing-space strip of `truncate_to_word` (text_utils.rs:23-25):
pop while the last cluster is a single space. -/
def stripTrailingSpaces (l : List String) : List String :=
  (l.reverse.dropWhile (fun g => g == " ")).reverse

/-- The single-cluster ellipsis marker pushed by `truncate_to_word`. -/
def ellipsis : String := "…"

/-- `truncate_to_word` (text_utils.rs:4-41), on the grapheme-cluster list of
the input string.  Mirrors the source line by line: early return of the
trimmed text when the budget is 0 or the trimmed text is empty; return the
trimmed text when it fits; otherwise take the first `max_graphemes` clusters,
cut at the last interior space, strip trailing spaces, then append the
ellipsis when strictly below the budget or replace the last cluster by the
ellipsis when exactly at the budget. -/
def truncate_to_word (summary : List String) (max_graphemes : Nat) : List String :=
  let t := trimGraphemes summary
  if max_graphemes = 0 || t.isEmpty then t
  else
    let num_graphemes := t.length
    if num_graphemes > max_graphemes then
      let g1 := t.take max_graphemes
      let g2 := cutAtLastSpace g1
      let g3 := stripTrailingSpaces g2
      if g3.length < max_graphemes then g3 ++ [ellipsis]
      else if g3.length = max_graphemes then g3.dropLast ++ [ellipsis]
      else g3
    else t

/-! ### Batch writes (`repository.rs` `create_execution_items`) -/

/-- Rust's `slice::chunks(25)`: consecutive chunks of at most 25 elements,
the last one possibly shorter, none empty.  25 is the DynamoDB bulk-write
limit; both bulk operations in `repository.rs` use exactly this size. -/
def chunks25 : List α → List (List α)
  | [] => []
  | a :: as => (a :: as).take 25 :: chunks25 ((a :: as).drop 25)
termination_by l => l.length
decreasing_by
  simp only [List.length_drop, List.length_cons]
  omega

/-- Outcome of a bulk-write call: the error (the unprocessed rows the table
reported, if any), the final table, and the trace of bulk-write requests
actually issued, in order. -/
structure BatchOutcome where
  err : Option (List Row)
  table : Table
  requests : List (List Row)
deriving DecidableEq, Repr

/-- The chunk loop of `create_execution_items` (repository.rs:86-151).
`env k` is the list of rows the table reports as unprocessed for the `k`-th
bulk-write request; the table applies every row of the request that is not
reported unprocessed.  When the report is non-empty the loop returns the
error carrying exactly the reported rows and issues no further requests;
no retry of unprocessed rows is ever performed. -/
def runBatchChunks (env : Nat → List Row) : Nat → Table → List (List Row) → BatchOutcome
  | _, t, [] => ⟨none, t, []⟩
  | k, t, rows :: rest =>
    let unp := env k
    let t' := putRows (rows.filter (fun r => !(unp.contains r))) t
    if unp.isEmpty then
      let o := runBatchChunks env (k + 1) t' rest
      ⟨o.err, o.table, rows :: o.requests⟩
    else
      ⟨some unp, t', [rows]⟩

/-- `create_execution_items` (repository.rs:85-154): chunk the items 25 at a
time and issue one bulk-write request per chunk, each request carrying the
same per-item rows as `create_execution_item`. -/
def create_execution_items (env : Nat → List Row) (items : List ExecutionItem)
    (t : Table) : BatchOutcome :=
  runBatchChunks env 0 t ((chunks25 items).map (fun c => c.map executionItemRow))

/-! ### Summary update (`repository.rs` `update_execution_item_summary`) -/

/-- `update_execution_item_summary` (repository.rs:167-185).  The request it
builds is an `UpdateItem` on key `(execution_id, guid)` with update
expression `SET summary = :summary` and no condition expression.  Per
DynamoDB `UpdateItem` semantics, when a row with the key exists the named
attribute is set and nothing else changes; when no row with the key exists a
new row holding the key and the set attribute is created (upsert) — the
operation does not fail on a missing row. -/
def update_execution_item_summary (t : Table) (execution_id guid summary : String) :
    Table :=
  if t.any (fun r => r.pk == execution_id && r.sk == guid) then
    t.map (fun r =>
      if r.pk == execution_id && r.sk == guid then
        setAttr r "summary" (AttrVal.S summary)
      else r)
  else
    t ++ [{ pk := execution_id, sk := guid, attrs := [("summary", AttrVal.S summary)] }]

/-! ### Bulk deletion (`repository.rs` `delete_items_by_execution_id`) -/

/-- The pagination loop of `delete_items_by_execution_id`
(repository.rs:265-298): issue a query, collect the `(PK, SK)` keys of every
returned row, follow the continuation key, stop when none remains.  The
table's successive query responses are the `pages` parameter; the loop
collects the keys of all pages in order. -/
def queryAllKeys : List (List Row) → List (String × String)
  | [] => []
  | p :: ps => p.map rowKey ++ queryAllKeys ps

/-- Outcome of the deletion pass: the error (unprocessed keys, if reported),
the count accumulated, the final table, and the trace of bulk-delete requests
issued. -/
structure DeleteOutcome where
  err : Option (List (String × String))
  count : Nat
  table : Table
  requests : List (List (String × String))
deriving DecidableEq, Repr

/-- Remove from the table every row whose key is among `ks`. -/
def applyDeletes (ks : List (String × String)) (t : Table) : Table :=
  t.filter (fun r => !(ks.contains (rowKey r)))

/-- The delete loop of `delete_items_by_execution_id` (repository.rs:301-339):
one bulk-delete request per chunk of 25 collected keys; `env k` is the list
of keys the table reports unprocessed for the `k`-th request (those keys are
not deleted).  The counter is increased by the full chunk size before the
unprocessed check, exactly as in the source; a non-empty report stops the
loop with an error carrying the reported keys. -/
def runDeleteChunks (env : Nat → List (String × String)) :
    Nat → Nat → Table → List (List (String × String)) → DeleteOutcome
  | _, acc, t, [] => ⟨none, acc, t, []⟩
  | k, acc, t, ks :: rest =>
    let unp := env k
    let t' := applyDeletes (ks.filter (fun x => !(unp.contains x))) t
    let acc' := acc + ks.length
    if unp.isEmpty then
      let o := runDeleteChunks env (k + 1) acc' t' rest
      ⟨o.err, o.count, o.table, ks :: o.requests⟩
    else
      ⟨some unp, acc', t', [ks]⟩

/-- `delete_items_by_execution_id` (repository.rs:259-342): collect the keys
of every row the paginated query returns, then bulk-delete them in chunks of
25, returning the total count on success. -/
def delete_items_by_execution_id (pages : List (List Row))
    (env : Nat → List (String × String)) (t : Table) : DeleteOutcome :=
  runDeleteChunks env 0 0 t (chunks25 (queryAllKeys pages))

/-! ### Record items (`repository.rs` and `bin/update_dynamodb.rs`) -/

/-- `create_record_item` (repository.rs:353-365): unconditional put of the
row `PK = item.guid` (the raw guid, no prefix), `SK = "A"`,
`_TYPE = "RecordItem"`. -/
def create_record_item (item : RecordItem) (t : Table) : Table :=
  putRow ⟨item.guid, "A", [("_TYPE", AttrVal.S "RecordItem")]⟩ t

/-- `record_item_exists` (repository.rs:414-427): point read of key
`(guid, "A")` (raw guid, projection onto `PK` only); true iff a row with
that key is present. -/
def record_item_exists (t : Table) (guid : String) : Bool :=
  t.any (fun r => r.pk == guid && r.sk == "A")

/-- `get_record_item` (repository.rs:376-402): point read of key
`(guid, "A")`; `none` models the "Record item not found" error. -/
def get_record_item (t : Table) (guid : String) : Option RecordItem :=
  (t.find? (fun r => r.pk == guid && r.sk == "A")).map (fun r =>
    { guid := r.pk
      _type := (getAttr r "_TYPE").bind (fun v =>
        match v with | AttrVal.S s => some s | AttrVal.N _ => none) })

/-- The put issued by the record-stage lambda `update_dynamodb`
(bin/update_dynamodb.rs:46-60): `PK = "guid-" ++ guid`, `SK = "A"`, no other
attributes. -/
def update_dynamodb_put (guid : String) (t : Table) : Table :=
  putRow ⟨"guid-" ++ guid, "A", []⟩ t

/-! ### Concrete inputs used by the witnesses -/

/-- 30 execution items with pairwise distinct keys, for the chunking witness. -/
def thirtyItems : List ExecutionItem :=
  (List.range 30).map (fun n =>
    ⟨"run-1", "g" ++ toString n, none, none, none, none, none, none, none⟩)

/-- The row a failing chunk is reported to leave unprocessed, in the C6
witness. -/
def failRow : Row := ⟨"e1", "g1", []⟩

/-- A single execution item used by the partial-failure witness. -/
def oneItem : ExecutionItem := ⟨"e1", "g1", none, none, none, none, none, none, none⟩

/-- A staging row under the partition key `"run-42"`, for the C7 witness. -/
def rowA : Row := ⟨"run-42", "g1", []⟩

/-- A row under a different partition key, untouched by the C7 witness. -/
def rowB : Row := ⟨"other", "g2", []⟩


/-! ### Lemmas about the truncation helpers -/

theorem rposition_some_get {p : α → Bool} {l : List α} {i : Nat}
    (h : rposition p l = some i) : ∃ a, l[i]? = some a ∧ p a = true := by
  induction l generalizing i with
  | nil => simp [rposition] at h
  | cons a as ih =>
    rw [rposition] at h
    cases hr : rposition p as with
    | some j =>
      rw [hr] at h
      cases h
      obtain ⟨b, hb, hpb⟩ := ih hr
      exact ⟨b, by simpa using hb, hpb⟩
    | none =>
      rw [hr] at h
      by_cases hp : p a
      · simp [hp] at h
        exact ⟨a, by simp [← h], hp⟩
      · simp [hp] at h

theorem rposition_some_lt {p : α → Bool} {l : List α} {i : Nat}
    (h : rposition p l = some i) : i < l.length := by
  obtain ⟨a, ha, _⟩ := rposition_some_get h
  exact (List.getElem?_eq_some_iff.mp ha).1

theorem rposition_none_not {p : α → Bool} {l : List α}
    (h : rposition p l = none) : ∀ (j : Nat) (a : α), l[j]? = some a → p a = false := by
  induction l with
  | nil => intro j a ha; simp at ha
  | cons b bs ih =>
    rw [rposition] at h
    cases hr : rposition p bs with
    | some j => rw [hr] at h; cases h
    | none =>
      rw [hr] at h
      by_cases hp : p b
      · simp [hp] at h
      · intro j a ha
        cases j with
        | zero => simp at ha; subst ha; exact Bool.eq_false_iff.mpr hp
        | succ j => exact ih hr j a (by simpa using ha)

theorem rposition_some_last {p : α → Bool} {l : List α} {i : Nat}
    (h : rposition p l = some i) :
    ∀ (j : Nat) (a : α), i < j → l[j]? = some a → p a = false := by
  induction l generalizing i with
  | nil => simp [rposition] at h
  | cons b bs ih =>
    rw [rposition] at h
    cases hr : rposition p bs with
    | some k =>
      rw [hr] at h
      cases h
      intro j a hij ha
      cases j with
      | zero => omega
      | succ j => exact ih hr j a (by omega) (by simpa using ha)
    | none =>
      rw [hr] at h
      by_cases hp : p b
      · simp [hp] at h
        intro j a hij ha
        cases j with
        | zero => omega
        | succ j => exact rposition_none_not hr j a (by simpa using ha)
      · simp [hp] at h

theorem length_stripTrailingSpaces_le (l : List String) :
    (stripTrailingSpaces l).length ≤ l.length := by
  unfold stripTrailingSpaces
  calc ((l.reverse.dropWhile (fun g => g == " ")).reverse).length
      = (l.reverse.dropWhile (fun g => g == " ")).length := by simp
    _ ≤ l.reverse.length := (List.dropWhile_sublist _).length_le
    _ = l.length := by simp

theorem length_cutAtLastSpace_le (l : List String) :
    (cutAtLastSpace l).length ≤ l.length := by
  unfold cutAtLastSpace
  cases h : rposition (fun g => g == " ") l with
  | some i =>
    by_cases hi : 0 < i
    · simp [hi, List.length_take_le']
    · simp [hi]
  | none => simp

/-- The cut-and-stripped prefix never exceeds the budget. -/
theorem length_cutStrip_le (t : List String) (m : Nat) :
    (stripTrailingSpaces (cutAtLastSpace (t.take m))).length ≤ m :=
  le_trans (length_stripTrailingSpaces_le _)
    (le_trans (length_cutAtLastSpace_le _) (List.length_take_le _ _))

/-- Characterization of `truncate_to_word` in the truncating case: with a
non-zero budget and a trimmed text longer than the budget, the result is the
cut-and-stripped prefix with the ellipsis appended (below budget) or
substituted for the last unit (at budget). -/
theorem truncate_of_long (gs : List String) (m : Nat) (h0 : m ≠ 0)
    (hn : (trimGraphemes gs).length > m) :
    truncate_to_word gs m =
      (if (stripTrailingSpaces (cutAtLastSpace ((trimGraphemes gs).take m))).length < m
       then stripTrailingSpaces (cutAtLastSpace ((trimGraphemes gs).take m)) ++ [ellipsis]
       else if (stripTrailingSpaces (cutAtLastSpace ((trimGraphemes gs).take m))).length = m
       then (stripTrailingSpaces (cutAtLastSpace ((trimGraphemes gs).take m))).dropLast ++ [ellipsis]
       else stripTrailingSpaces (cutAtLastSpace ((trimGraphemes gs).take m))) := by
  unfold truncate_to_word
  have hne : trimGraphemes gs ≠ [] := by
    intro hnil
    rw [hnil] at hn
    simp at hn
  simp [h0, hne, hn]

/-- Characterization of `truncate_to_word` in the non-truncating cases: zero
budget, empty trimmed text, or trimmed text within budget all return the
trimmed text unchanged. -/
theorem truncate_of_short (gs : List String) (m : Nat)
    (h : m = 0 ∨ trimGraphemes gs = [] ∨ (trimGraphemes gs).length ≤ m) :
    truncate_to_word gs m = trimGraphemes gs := by
  unfold truncate_to_word
  rcases h with h | h | h
  · simp [h]
  · simp [h]
  · by_cases h0 : m = 0
    · simp [h0]
    · by_cases hne : trimGraphemes gs = []
      · simp [hne]
      · have : ¬ (trimGraphemes gs).length > m := by omega
        simp [h0, hne, this]

/-- Claim C3 — for every input and every positive budget, the grapheme count
of `truncate_to_word` is at most the budget; and when the cut-and-stripped
prefix is exactly at the budget the result replaces its final unit by the
ellipsis rather than appending one. -/
theorem truncate_to_word_length_le (gs : List String) (max_graphemes : Nat)
    (h : 0 < max_graphemes) :
    (truncate_to_word gs max_graphemes).length ≤ max_graphemes ∧
    ((trimGraphemes gs).length > max_graphemes →
      (stripTrailingSpaces (cutAtLastSpace
          ((trimGraphemes gs).take max_graphemes))).length = max_graphemes →
      truncate_to_word gs max_graphemes =
        (stripTrailingSpaces (cutAtLastSpace
          ((trimGraphemes gs).take max_graphemes))).dropLast ++ [ellipsis]) := by
  have h0 : max_graphemes ≠ 0 := by omega
  constructor
  · by_cases hn : (trimGraphemes gs).length > max_graphemes
    · rw [truncate_of_long gs max_graphemes h0 hn]
      have hle := length_cutStrip_le (trimGraphemes gs) max_graphemes
      by_cases hlt : (stripTrailingSpaces (cutAtLastSpace
          ((trimGraphemes gs).take max_graphemes))).length < max_graphemes
      · rw [if_pos hlt]
        simp only [List.length_append, List.length_singleton]
        omega
      · rw [if_neg hlt]
        have heq : (stripTrailingSpaces (cutAtLastSpace
            ((trimGraphemes gs).take max_graphemes))).length = max_graphemes := by omega
        rw [if_pos heq]
        simp only [List.length_append, List.length_singleton, List.length_dropLast]
        omega
    · rw [truncate_of_short gs max_graphemes (Or.inr (Or.inr (by omega)))]
      omega
  · intro hn heq
    rw [truncate_of_long gs max_graphemes h0 hn, if_neg (by omega), if_pos heq]

/-- Witness for C3 at `gs = ["a","b","c"]`, `max = 2`: the trimmed text has
3 > 2 units, the cut-and-stripped prefix `["a","b"]` is exactly at the
budget, and the result `["a","…"]` both respects the bound and replaces the
final unit. -/
theorem truncate_to_word_length_le_witness :
    (truncate_to_word ["a", "b", "c"] 2).length ≤ 2 ∧
    truncate_to_word ["a", "b", "c"] 2 =
      (stripTrailingSpaces (cutAtLastSpace
        ((trimGraphemes ["a", "b", "c"]).take 2))).dropLast ++ [ellipsis] := by
  have h := truncate_to_word_length_le ["a", "b", "c"] 2 (by decide)
  exact ⟨h.1, h.2 (by decide) (by decide)⟩

/-- Claim C5 — whenever the budget is zero, or the trimmed text is empty, or
the trimmed text already fits the budget, `truncate_to_word` returns exactly
the trimmed text, with no marker appended. -/
theorem truncate_to_word_acts_as_trim (gs : List String) (max_graphemes : Nat)
    (h : max_graphemes = 0 ∨ trimGraphemes gs = [] ∨
      (trimGraphemes gs).length ≤ max_graphemes) :
    truncate_to_word gs max_graphemes = trimGraphemes gs :=
  truncate_of_short gs max_graphemes h

/-- Witness for C5 at `gs = [" ", "a", " "]`, `max = 0`: the zero-budget
escape hatch returns the trimmed text. -/
theorem truncate_to_word_acts_as_trim_witness :
    truncate_to_word [" ", "a", " "] 0 = trimGraphemes [" ", "a", " "] :=
  truncate_to_word_acts_as_trim [" ", "a", " "] 0 (Or.inl rfl)

/-- Claim C4 — in the truncating case: when the first `max` units contain a
space at an index greater than 0, `truncate_to_word` cuts at the last such
space (the unit at the cut index is a space and no later unit of the prefix
is), strips trailing spaces, and appends the marker, so no partial trailing
word precedes the marker; when the prefix has no space at a positive index,
the cut point is the full `max`-unit prefix. -/
theorem truncate_to_word_word_boundary (gs : List String) (max_graphemes : Nat)
    (h0 : 0 < max_graphemes) (hn : (trimGraphemes gs).length > max_graphemes) :
    (∀ i : Nat,
      rposition (fun g => g == " ") ((trimGraphemes gs).take max_graphemes) = some i →
      0 < i →
      truncate_to_word gs max_graphemes =
        stripTrailingSpaces (((trimGraphemes gs).take max_graphemes).take i) ++ [ellipsis] ∧
      ((trimGraphemes gs).take max_graphemes)[i]? = some " " ∧
      (∀ (j : Nat) (g : String), i < j →
        ((trimGraphemes gs).take max_graphemes)[j]? = some g → g ≠ " ")) ∧
    ((∀ (j : Nat) (g : String), 0 < j →
        ((trimGraphemes gs).take max_graphemes)[j]? = some g → g ≠ " ") →
      cutAtLastSpace ((trimGraphemes gs).take max_graphemes) =
        (trimGraphemes gs).take max_graphemes) := by
  constructor
  · intro i hr hi
    have hcut : cutAtLastSpace ((trimGraphemes gs).take max_graphemes) =
        ((trimGraphemes gs).take max_graphemes).take i := by
      unfold cutAtLastSpace
      rw [hr]
      simp [hi]
    have hilt : i < max_graphemes := by
      have := rposition_some_lt hr
      rw [List.length_take] at this
      omega
    have hlen : (stripTrailingSpaces (cutAtLastSpace
        ((trimGraphemes gs).take max_graphemes))).length < max_graphemes := by
      calc (stripTrailingSpaces (cutAtLastSpace
            ((trimGraphemes gs).take max_graphemes))).length
          ≤ (cutAtLastSpace ((trimGraphemes gs).take max_graphemes)).length :=
            length_stripTrailingSpaces_le _
        _ = (((trimGraphemes gs).take max_graphemes).take i).length := by rw [hcut]
        _ ≤ i := List.length_take_le _ _
        _ < max_graphemes := hilt
    refine ⟨?_, ?_, ?_⟩
    · rw [truncate_of_long gs max_graphemes (by omega) hn, if_pos hlen, hcut]
    · obtain ⟨g, hg, hpg⟩ := rposition_some_get hr
      have : g = " " := by simpa using hpg
      rw [← this]
      exact hg
    · intro j g hij hj
      have := rposition_some_last hr j g hij hj
      intro hcontra
      rw [hcontra] at this
      simp at this
  · intro hnone
    unfold cutAtLastSpace
    cases hr : rposition (fun g => g == " ") ((trimGraphemes gs).take max_graphemes) with
    | some i =>
      obtain ⟨g, hg, hpg⟩ := rposition_some_get hr
      have hgs : g = " " := by simpa using hpg
      by_cases hi : 0 < i
      · exact absurd hgs (hnone i g hi hg)
      · simp [hi]
    | none => rfl

/-- Witness for C4 at `gs = ["a", " ", "b", "c"]`, `max = 3`: the 3-unit
prefix `["a", " ", "b"]` has its last space at index 1, the cut keeps
`["a"]`, and the result is `["a", "…"]`; index 2 holds `"b"`, not a space. -/
theorem truncate_to_word_word_boundary_witness :
    truncate_to_word ["a", " ", "b", "c"] 3 =
      stripTrailingSpaces (((trimGraphemes ["a", " ", "b", "c"]).take 3).take 1) ++ [ellipsis] ∧
    ((trimGraphemes ["a", " ", "b", "c"]).take 3)[1]? = some " " ∧
    ("b" : String) ≠ " " := by
  have h := truncate_to_word_word_boundary ["a", " ", "b", "c"] 3 (by decide) (by decide)
  have h1 := h.1 1 (by decide) (by decide)
  exact ⟨h1.1, h1.2.1, h1.2.2 2 "b" (by decide) (by decide)⟩

/-! ### Lemmas about `chunks25` -/

/-- Induction along the recursion of `chunks25`. -/
theorem chunks25_induction {α : Type _} (motive : List α → Prop) (hnil : motive [])
    (hstep : ∀ a as, motive ((a :: as).drop 25) → motive (a :: as)) : ∀ l, motive l := by
  have key : ∀ (n : Nat) (l : List α), l.length ≤ n → motive l := by
    intro n
    induction n with
    | zero =>
      intro l h
      have : l = [] := List.eq_nil_of_length_eq_zero (by omega)
      rw [this]; exact hnil
    | succ n ih =>
      intro l h
      cases l with
      | nil => exact hnil
      | cons a as =>
        apply hstep
        apply ih
        simp only [List.length_drop, List.length_cons]
        simp only [List.length_cons] at h
        omega
  exact fun l => key l.length l le_rfl

theorem chunks25_flatten (l : List α) : (chunks25 l).flatten = l := by
  induction l using chunks25_induction with
  | hnil => rw [chunks25]; rfl
  | hstep a as ih =>
    rw [chunks25]
    simp only [List.flatten_cons, ih, List.take_append_drop]

theorem chunks25_sizes (l : List α) : ∀ c ∈ chunks25 l, c.length ≤ 25 := by
  induction l using chunks25_induction with
  | hnil => intro c hc; rw [chunks25] at hc; simp at hc
  | hstep a as ih =>
    intro c hc
    rw [chunks25] at hc
    rcases List.mem_cons.mp hc with h | h
    · rw [h]; exact List.length_take_le _ _
    · exact ih c h

theorem chunks25_count (l : List α) : (chunks25 l).length = (l.length + 24) / 25 := by
  induction l using chunks25_induction with
  | hnil => rw [chunks25]; simp
  | hstep a as ih =>
    rw [chunks25]
    simp only [List.length_cons, ih, List.length_drop]
    omega

theorem chunks25_of_short {l : List α} (hne : l ≠ []) (hle : l.length ≤ 25) :
    chunks25 l = [l] := by
  cases l with
  | nil => exact absurd rfl hne
  | cons a as =>
    rw [chunks25, List.take_of_length_le hle, List.drop_eq_nil_of_le hle, chunks25]

theorem chunks25_of_length_30 {l : List α} (h : l.length = 30) :
    (chunks25 l).map List.length = [25, 5] := by
  cases l with
  | nil => simp at h
  | cons a as =>
    rw [chunks25]
    have hd : ((a :: as).drop 25).length = 5 := by
      simp only [List.length_drop]; omega
    have hdne : (a :: as).drop 25 ≠ [] := by
      intro hnil; rw [hnil] at hd; simp at hd
    rw [chunks25_of_short hdne (by omega)]
    simp only [List.map_cons, List.map_nil, List.length_take, hd]
    rw [h]
    norm_num

/-! ### Lemmas about `putRows` and `runBatchChunks` -/

theorem putRows_append (rs₁ rs₂ : List Row) (t : Table) :
    putRows (rs₁ ++ rs₂) t = putRows rs₂ (putRows rs₁ t) := by
  unfold putRows
  rw [List.foldl_append]

theorem mem_putRow_self (r : Row) (t : Table) : r ∈ putRow r t := by
  unfold putRow
  exact List.mem_append_right _ (List.mem_singleton.mpr rfl)

theorem mem_putRow_of_ne (r r' : Row) (t : Table) (h : r ∈ t)
    (hk : rowKey r' ≠ rowKey r) : r ∈ putRow r' t := by
  unfold putRow
  apply List.mem_append_left
  rw [List.mem_filter]
  refine ⟨h, ?_⟩
  have hne : r.pk = r'.pk → ¬ r.sk = r'.sk := by
    intro h1 h2
    exact hk (by unfold rowKey; rw [h1, h2])
  simp only [Bool.not_eq_true', Bool.and_eq_false_iff, beq_eq_false_iff_ne, ne_eq]
  by_cases h1 : r.pk = r'.pk
  · exact Or.inr (hne h1)
  · exact Or.inl h1

theorem mem_putRows_of_ne (rs : List Row) (r : Row) (t : Table) (h : r ∈ t)
    (hk : ∀ r' ∈ rs, rowKey r' ≠ rowKey r) : r ∈ putRows rs t := by
  induction rs generalizing t with
  | nil => exact h
  | cons a rest ih =>
    have : putRows (a :: rest) t = putRows rest (putRow a t) := rfl
    rw [this]
    exact ih (putRow a t) (mem_putRow_of_ne r a t h (hk a (List.mem_cons_self a rest)))
      (fun r' hr' => hk r' (List.mem_cons_of_mem a hr'))

theorem mem_putRows_self (rs : List Row) (r : Row) (t : Table) (h : r ∈ rs)
    (hnd : (rs.map rowKey).Nodup) : r ∈ putRows rs t := by
  induction rs generalizing t with
  | nil => simp at h
  | cons a rest ih =>
    have hstep : putRows (a :: rest) t = putRows rest (putRow a t) := rfl
    rw [hstep]
    simp only [List.map_cons, List.nodup_cons] at hnd
    rcases List.mem_cons.mp h with h | h
    · subst h
      exact mem_putRows_of_ne rest r (putRow r t) (mem_putRow_self r t)
        (fun r' hr' heq => hnd.1 (heq ▸ List.mem_map_of_mem rowKey hr'))
    · exact ih (putRow a t) h hnd.2

theorem runBatchChunks_allOk (env : Nat → List Row) (cs : List (List Row)) :
    ∀ (k : Nat) (t : Table), (∀ j, j < cs.length → env (k + j) = []) →
    runBatchChunks env k t cs = ⟨none, putRows cs.flatten t, cs⟩ := by
  induction cs with
  | nil => intro k t h; rfl
  | cons c rest ih =>
    intro k t h
    have h0 : env k = [] := by simpa using h 0 (by simp)
    rw [runBatchChunks]
    simp only [h0, List.isEmpty_nil, if_true, List.contains_nil, Bool.not_false,
      List.filter_true]
    rw [ih (k + 1) (putRows c t)
      (fun j hj => by rw [Nat.add_assoc, Nat.add_comm 1 j, ← Nat.add_assoc]
                      exact h (j + 1) (by simpa using hj))]
    simp only [List.flatten_cons, putRows_append]

theorem runBatchChunks_fail (env : Nat → List Row) (cs : List (List Row)) :
    ∀ (m k : Nat) (t : Table), m < cs.length →
    (∀ j, j < m → env (k + j) = []) → env (k + m) ≠ [] →
    (runBatchChunks env k t cs).err = some (env (k + m)) ∧
    (runBatchChunks env k t cs).requests = cs.take (m + 1) ∧
    (∀ c, cs[m]? = some c →
      (runBatchChunks env k t cs).table =
        putRows (c.filter (fun r => !((env (k + m)).contains r)))
          (putRows (cs.take m).flatten t)) := by
  induction cs with
  | nil => intro m k t hm; simp at hm
  | cons c rest ih =>
    intro m k t hm hbefore hfail
    cases m with
    | zero =>
      have hne : (env k).isEmpty = false := by
        rw [List.isEmpty_eq_false_iff_exists_mem]
        cases henv : env k with
        | nil => exact absurd (by simpa using henv) hfail
        | cons x xs => exact ⟨x, by simp⟩
      rw [runBatchChunks]
      simp only [hne, Bool.false_eq_true, if_false]
      refine ⟨rfl, by simp, ?_⟩
      intro c' hc'
      simp only [List.getElem?_cons_zero, Option.some.injEq] at hc'
      subst hc'
      simp [putRows]
    | succ m' =>
      have h0 : env k = [] := by simpa using hbefore 0 (by omega)
      rw [runBatchChunks]
      simp only [h0, List.isEmpty_nil, if_true, List.contains_nil, Bool.not_false,
        List.filter_true]
      have harg : ∀ j, j < m' → env (k + 1 + j) = [] := by
        intro j hj
        rw [Nat.add_assoc, Nat.add_comm 1 j, ← Nat.add_assoc]
        exact hbefore (j + 1) (by omega)
      have hfail' : env (k + 1 + m') ≠ [] := by
        rw [Nat.add_assoc, Nat.add_comm 1 m', ← Nat.add_assoc]
        exact hfail
      obtain ⟨he, hreq, htab⟩ :=
        ih m' (k + 1) (putRows c t) (by simpa using hm) harg hfail'
      have hidx : k + 1 + m' = k + (m' + 1) := by omega
      refine ⟨?_, ?_, ?_⟩
      · simpa [hidx] using he
      · simp [hreq]
      · intro c' hc'
        simp only [List.getElem?_cons_succ] at hc'
        have := htab c' hc'
        rw [hidx] at this
        simp only [List.take_succ_cons, List.flatten_cons, putRows_append] at this ⊢
        simpa using this

/-- Claim C8 — `create_execution_items` partitions its items into consecutive
chunks of at most 25 and issues exactly one bulk-write request per chunk,
`⌈n/25⌉` requests in order covering every item; with 30 items it issues
exactly 2 requests carrying 25 and 5 items. -/
theorem create_execution_items_chunking (items : List ExecutionItem)
    (env : Nat → List Row) (t : Table) (hok : ∀ j, env j = []) :
    (create_execution_items env items t).err = none ∧
    (create_execution_items env items t).requests =
      (chunks25 items).map (fun c => c.map executionItemRow) ∧
    (create_execution_items env items t).requests.length = (items.length + 24) / 25 ∧
    (∀ c ∈ (create_execution_items env items t).requests, c.length ≤ 25) ∧
    (create_execution_items env items t).requests.flatten = items.map executionItemRow ∧
    (items.length = 30 →
      (create_execution_items env items t).requests.map List.length = [25, 5]) := by
  unfold create_execution_items
  rw [runBatchChunks_allOk env _ 0 t (fun j hj => hok _)]
  refine ⟨rfl, rfl, ?_, ?_, ?_, ?_⟩
  · rw [List.length_map, chunks25_count]
  · intro c hc
    obtain ⟨c', hc', rfl⟩ := List.mem_map.mp hc
    rw [List.length_map]
    exact chunks25_sizes items c' hc'
  · rw [← List.map_flatten, chunks25_flatten]
  · intro h30
    rw [List.map_map]
    have hcomp : (List.length ∘ List.map executionItemRow) =
        fun (c : List ExecutionItem) => c.length := by
      funext c; simp
    rw [hcomp]
    exact chunks25_of_length_30 h30

/-- Witness for C8: a batch of 30 items succeeds and issues exactly two
bulk-write requests carrying 25 and 5 rows. -/
theorem create_execution_items_chunking_witness :
    (create_execution_items (fun _ => []) thirtyItems []).err = none ∧
    (create_execution_items (fun _ => []) thirtyItems []).requests.map List.length
      = [25, 5] := by
  have h := create_execution_items_chunking thirtyItems (fun _ => []) [] (fun _ => rfl)
  exact ⟨h.1, h.2.2.2.2.2 (by simp [thirtyItems])⟩

/-- Claim C6 — when the table reports unprocessed rows for chunk `k`, the
batch create returns an error carrying exactly those rows, the request trace
stops at chunk `k` (one request per chunk, no retry, nothing after `k`), and
every row of chunks before `k` is still present in the final table. -/
theorem create_execution_items_partial_failure (items : List ExecutionItem)
    (env : Nat → List Row) (t : Table) (k : Nat)
    (hnd : (items.map (fun i => (i.execution_id, i.guid))).Nodup)
    (hk : k < (chunks25 items).length)
    (hbefore : ∀ j, j < k → env j = [])
    (hfail : env k ≠ []) :
    (create_execution_items env items t).err = some (env k) ∧
    (create_execution_items env items t).requests =
      ((chunks25 items).map (fun c => c.map executionItemRow)).take (k + 1) ∧
    (∀ r ∈ (((chunks25 items).map (fun c => c.map executionItemRow)).take k).flatten,
      r ∈ (create_execution_items env items t).table) := by
  have hk' : k < ((chunks25 items).map (fun c => c.map executionItemRow)).length := by
    rw [List.length_map]; exact hk
  unfold create_execution_items
  obtain ⟨he, hreq, htab⟩ :=
    runBatchChunks_fail env ((chunks25 items).map (fun c => c.map executionItemRow))
      k 0 t hk'
      (fun j hj => by rw [Nat.zero_add]; exact hbefore j hj)
      (by rw [Nat.zero_add]; exact hfail)
  rw [Nat.zero_add] at he
  refine ⟨he, hreq, ?_⟩
  have htab' := htab _ (List.getElem?_eq_getElem hk')
  rw [Nat.zero_add] at htab'
  rw [htab']
  have hkeys : ((((chunks25 items).map (fun c => c.map executionItemRow)).flatten).map
      rowKey).Nodup := by
    rw [← List.map_flatten, chunks25_flatten, List.map_map]
    have hcomp : (rowKey ∘ executionItemRow) =
        fun (i : ExecutionItem) => (i.execution_id, i.guid) := by
      funext i; rfl
    rw [hcomp]
    exact hnd
  have hsplit : (((chunks25 items).map (fun c => c.map executionItemRow)).flatten) =
      ((((chunks25 items).map (fun c => c.map executionItemRow)).take k).flatten) ++
      ((((chunks25 items).map (fun c => c.map executionItemRow)).drop k).flatten) := by
    rw [← List.flatten_append, List.take_append_drop]
  rw [hsplit, List.map_append] at hkeys
  obtain ⟨hnd1, hnd2, hdisj⟩ := List.nodup_append.mp hkeys
  intro r hr
  apply mem_putRows_of_ne
  · exact mem_putRows_self _ r t hr hnd1
  · intro r' hr' heq
    have hmem : r' ∈ ((chunks25 items).map (fun c => c.map executionItemRow))[k] :=
      (List.mem_filter.mp hr').1
    have hck : ((chunks25 items).map (fun c => c.map executionItemRow))[k] ∈
        ((chunks25 items).map (fun c => c.map executionItemRow)).drop k := by
      rw [List.drop_eq_getElem_cons hk']
      exact List.mem_cons_self _ _
    have h2 : rowKey r' ∈ ((((chunks25 items).map
        (fun c => c.map executionItemRow)).drop k).flatten).map rowKey :=
      List.mem_map_of_mem rowKey (List.mem_flatten_of_mem hck hmem)
    have h1 : rowKey r ∈ ((((chunks25 items).map
        (fun c => c.map executionItemRow)).take k).flatten).map rowKey :=
      List.mem_map_of_mem rowKey hr
    exact hdisj h1 (heq ▸ h2)

/-- Witness for C6: with one item and a table reporting `[failRow]`
unprocessed on the first request, the call errors with exactly that report
and the trace holds the single issued request. -/
theorem create_execution_items_partial_failure_witness :
    (create_execution_items (fun _ => [failRow]) [oneItem] []).err = some [failRow] ∧
    (create_execution_items (fun _ => [failRow]) [oneItem] []).requests =
      [[executionItemRow oneItem]] := by
  have h := create_execution_items_partial_failure [oneItem] (fun _ => [failRow]) [] 0
    (by simp) (by simp [chunks25]) (fun j hj => absurd hj (by omega)) (by simp)
  refine ⟨h.1, ?_⟩
  rw [h.2.1]
  simp [chunks25]

/-! ### Lemmas about the deletion pass -/

theorem queryAllKeys_eq (pages : List (List Row)) :
    queryAllKeys pages = pages.flatten.map rowKey := by
  induction pages with
  | nil => rfl
  | cons p ps ih => simp [queryAllKeys, ih]

theorem applyDeletes_append (ks₁ ks₂ : List (String × String)) (t : Table) :
    applyDeletes ks₂ (applyDeletes ks₁ t) = applyDeletes (ks₁ ++ ks₂) t := by
  unfold applyDeletes
  rw [List.filter_filter]
  apply List.filter_congr
  intro r _
  by_cases h1 : rowKey r ∈ ks₁ <;> by_cases h2 : rowKey r ∈ ks₂ <;>
    simp [h1, h2]

theorem runDeleteChunks_allOk (env : Nat → List (String × String))
    (cs : List (List (String × String))) :
    ∀ (k acc : Nat) (t : Table), (∀ j, j < cs.length → env (k + j) = []) →
    runDeleteChunks env k acc t cs =
      ⟨none, acc + (cs.map List.length).sum, applyDeletes cs.flatten t, cs⟩ := by
  induction cs with
  | nil =>
    intro k acc t h
    rw [runDeleteChunks]
    simp [applyDeletes]
  | cons ks rest ih =>
    intro k acc t h
    have h0 : env k = [] := by simpa using h 0 (by simp)
    rw [runDeleteChunks]
    simp only [h0, List.isEmpty_nil, if_true, List.contains_nil, Bool.not_false,
      List.filter_true]
    rw [ih (k + 1) (acc + ks.length) (applyDeletes ks t) (fun j hj => by
      rw [Nat.add_assoc, Nat.add_comm 1 j, ← Nat.add_assoc]
      exact h (j + 1) (by simpa using hj))]
    simp only [List.flatten_cons, List.map_cons, List.sum_cons]
    rw [applyDeletes_append, Nat.add_assoc]

/-- Claim C7 — given that the paginated query's pages enumerate exactly the
rows under the partition key (the table's pagination contract) and every
bulk-delete request is fully processed, `delete_items_by_execution_id`
succeeds, returns a count equal to the number of rows that existed under the
key, leaves no row with that partition key retrievable, and bulk-deletes
every queried key in chunks of at most 25. -/
theorem delete_items_by_execution_id_complete (pages : List (List Row))
    (env : Nat → List (String × String)) (t : Table) (execution_id : String)
    (hpages : pages.flatten = t.filter (fun r => r.pk == execution_id))
    (hok : ∀ j, env j = []) :
    (delete_items_by_execution_id pages env t).err = none ∧
    (delete_items_by_execution_id pages env t).count =
      (t.filter (fun r => r.pk == execution_id)).length ∧
    (delete_items_by_execution_id pages env t).table.filter
      (fun r => r.pk == execution_id) = [] ∧
    (delete_items_by_execution_id pages env t).requests =
      chunks25 ((t.filter (fun r => r.pk == execution_id)).map rowKey) ∧
    (∀ c ∈ (delete_items_by_execution_id pages env t).requests, c.length ≤ 25) ∧
    (delete_items_by_execution_id pages env t).requests.flatten =
      (t.filter (fun r => r.pk == execution_id)).map rowKey := by
  unfold delete_items_by_execution_id
  have hkeys : queryAllKeys pages = (t.filter (fun r => r.pk == execution_id)).map rowKey := by
    rw [queryAllKeys_eq, hpages]
  rw [hkeys]
  rw [runDeleteChunks_allOk env _ 0 0 t (fun j hj => hok _)]
  refine ⟨rfl, ?_, ?_, rfl, ?_, ?_⟩
  · have hsum : ((chunks25 ((t.filter (fun r => r.pk == execution_id)).map
        rowKey)).map List.length).sum =
        ((t.filter (fun r => r.pk == execution_id)).map rowKey).length := by
      rw [← List.length_flatten, chunks25_flatten]
    rw [hsum, List.length_map, Nat.zero_add]
  · rw [chunks25_flatten]
    rw [List.eq_nil_iff_forall_not_mem]
    intro r hr
    rw [List.mem_filter] at hr
    obtain ⟨hrmem, hrpk⟩ := hr
    unfold applyDeletes at hrmem
    rw [List.mem_filter] at hrmem
    obtain ⟨hrt, hnotin⟩ := hrmem
    have hin : rowKey r ∈ (t.filter (fun r => r.pk == execution_id)).map rowKey :=
      List.mem_map_of_mem rowKey (List.mem_filter.mpr ⟨hrt, hrpk⟩)
    simp [hin] at hnotin
  · intro c hc
    exact chunks25_sizes _ c hc
  · rw [chunks25_flatten]

/-- Witness for C7: deleting run `"run-42"` from a table holding one matching
row and one unrelated row succeeds, returns count 1, and leaves no row with
that partition key. -/
theorem delete_items_by_execution_id_complete_witness :
    (delete_items_by_execution_id [[rowA]] (fun _ => []) [rowA, rowB]).err = none ∧
    (delete_items_by_execution_id [[rowA]] (fun _ => []) [rowA, rowB]).count = 1 ∧
    (delete_items_by_execution_id [[rowA]] (fun _ => []) [rowA, rowB]).table.filter
      (fun r => r.pk == "run-42") = [] := by
  have h := delete_items_by_execution_id_complete [[rowA]] (fun _ => []) [rowA, rowB]
    "run-42" (by decide) (fun _ => rfl)
  refine ⟨h.1, ?_, h.2.2.1⟩
  rw [h.2.1]
  decide

/-! ### Lemmas about `setAttr` / `getAttr` and the summary update -/

theorem find?_filter_of_imp {p q : α → Bool} (l : List α)
    (h : ∀ x, p x = true → q x = true) : (l.filter q).find? p = l.find? p := by
  induction l with
  | nil => rfl
  | cons a as ih =>
    by_cases hq : q a = true
    · rw [List.filter_cons_of_pos hq]
      by_cases hp : p a = true
      · rw [List.find?_cons_of_pos _ hp, List.find?_cons_of_pos _ hp]
      · rw [List.find?_cons_of_neg _ (by simpa using hp),
          List.find?_cons_of_neg _ (by simpa using hp)]
        exact ih
    · rw [List.filter_cons_of_neg (by simpa using hq)]
      have hp : p a = false := by
        cases hpa : p a
        · rfl
        · exact absurd (h a hpa) hq
      rw [List.find?_cons_of_neg _ (by simp [hp])]
      exact ih

theorem getAttr_setAttr_same (r : Row) (name : String) (v : AttrVal) :
    getAttr (setAttr r name v) name = some v := by
  unfold getAttr setAttr
  simp only []
  rw [List.find?_append]
  have h1 : (r.attrs.filter (fun p => !(p.1 == name))).find? (fun p => p.1 == name)
      = none := by
    rw [List.find?_eq_none]
    intro x hx
    rw [List.mem_filter] at hx
    simpa using hx.2
  rw [h1]
  simp [List.find?]

theorem getAttr_setAttr_other (r : Row) (name other : String) (v : AttrVal)
    (h : other ≠ name) : getAttr (setAttr r name v) other = getAttr r other := by
  unfold getAttr setAttr
  simp only []
  rw [List.find?_append]
  have h2 : List.find? (fun p => p.1 == other) [(name, v)] = none := by
    simp only [List.find?]
    have : (name == other) = false := by
      simp only [beq_eq_false_iff_ne, ne_eq]
      exact fun hh => h hh.symm
    rw [this]
  have h3 : (r.attrs.filter (fun p => !(p.1 == name))).find? (fun p => p.1 == other)
      = r.attrs.find? (fun p => p.1 == other) := by
    apply find?_filter_of_imp
    intro x hx
    have : x.1 = other := by simpa using hx
    simp [this, h]
  rw [h2, h3]
  cases r.attrs.find? (fun p => p.1 == other) <;> rfl

/-- Counterexample to C1: on the empty table — where no row keyed
`("e1","g1")` exists — `update_execution_item_summary` does not fail and does
create a row: the unconditional `UpdateItem` upserts a fresh row holding the
key and the summary attribute. -/
theorem update_execution_item_summary_counterexample :
    update_execution_item_summary [] "e1" "g1" "s1" =
      [⟨"e1", "g1", [("summary", AttrVal.S "s1")]⟩] := by
  rfl

/-- Claim C1 as amended — `update_execution_item_summary` performs an
unconditional partial update: when no row with the key exists it creates one
holding exactly the key and the summary attribute (upsert, no failure); when
the row exists it rewrites only matching rows, setting exactly the `summary`
attribute and preserving every other attribute. -/
theorem update_execution_item_summary_amended (t : Table)
    (execution_id guid summary : String) :
    ((∀ r ∈ t, ¬(r.pk = execution_id ∧ r.sk = guid)) →
      update_execution_item_summary t execution_id guid summary =
        t ++ [⟨execution_id, guid, [("summary", AttrVal.S summary)]⟩]) ∧
    ((∃ r ∈ t, r.pk = execution_id ∧ r.sk = guid) →
      update_execution_item_summary t execution_id guid summary =
        t.map (fun r => if r.pk == execution_id && r.sk == guid
          then setAttr r "summary" (AttrVal.S summary) else r)) ∧
    (∀ r : Row, getAttr (setAttr r "summary" (AttrVal.S summary)) "summary"
      = some (AttrVal.S summary)) ∧
    (∀ (r : Row) (name : String), name ≠ "summary" →
      getAttr (setAttr r "summary" (AttrVal.S summary)) name = getAttr r name) := by
  refine ⟨?_, ?_, ?_, ?_⟩
  · intro hnone
    unfold update_execution_item_summary
    rw [if_neg]
    simp only [List.any_eq_true, not_exists]
    intro r
    intro hcontra
    rcases hcontra with ⟨hrt, hbeq⟩
    simp only [Bool.and_eq_true, beq_iff_eq] at hbeq
    exact hnone r hrt hbeq
  · intro hsome
    unfold update_execution_item_summary
    rw [if_pos]
    obtain ⟨r, hrt, h1, h2⟩ := hsome
    simp only [List.any_eq_true]
    exact ⟨r, hrt, by simp [h1, h2]⟩
  · intro r
    exact getAttr_setAttr_same r "summary" (AttrVal.S summary)
  · intro r name hname
    exact getAttr_setAttr_other r "summary" name (AttrVal.S summary) hname

/-- Witness for the amended C1 at a one-row table: the summary attribute is
set on the keyed row, and its other attributes are preserved. -/
theorem update_execution_item_summary_amended_witness :
    update_execution_item_summary [⟨"e1", "g1", [("title", AttrVal.S "T")]⟩]
        "e1" "g1" "s1" =
      [⟨"e1", "g1", [("title", AttrVal.S "T"), ("summary", AttrVal.S "s1")]⟩] ∧
    getAttr (setAttr ⟨"e1", "g1", [("title", AttrVal.S "T")]⟩ "summary"
        (AttrVal.S "s1")) "title" = some (AttrVal.S "T") := by
  have h := update_execution_item_summary_amended
    [⟨"e1", "g1", [("title", AttrVal.S "T")]⟩] "e1" "g1" "s1"
  refine ⟨?_, h.2.2.2 ⟨"e1", "g1", [("title", AttrVal.S "T")]⟩ "title" (by decide)⟩
  rw [h.2.1 ⟨⟨"e1", "g1", [("title", AttrVal.S "T")]⟩, by simp, rfl, rfl⟩]
  decide

/-! ### Dedup record claims -/

/-- Claim C9 — `record_item_exists` is false on a table holding no row keyed
`(guid, "A")`, true immediately after `create_record_item` for that guid, and
a second `create_record_item` for the same guid succeeds and changes nothing
(last-write-wins, no prior-existence check). -/
theorem record_item_dedup (guid : String) (t : Table) (ty : Option String) :
    ((∀ r ∈ t, ¬(r.pk = guid ∧ r.sk = "A")) → record_item_exists t guid = false) ∧
    record_item_exists (create_record_item ⟨guid, ty⟩ t) guid = true ∧
    create_record_item ⟨guid, ty⟩ (create_record_item ⟨guid, ty⟩ t) =
      create_record_item ⟨guid, ty⟩ t := by
  refine ⟨?_, ?_, ?_⟩
  · intro h
    unfold record_item_exists
    rw [List.any_eq_false]
    intro r hr
    simp only [Bool.and_eq_true, beq_iff_eq]
    exact h r hr
  · unfold record_item_exists create_record_item putRow
    rw [List.any_append]
    simp
  · unfold create_record_item putRow
    rw [List.filter_append, List.filter_filter]
    simp

/-- Witness for C9 at `guid = "g1"` on the empty table. -/
theorem record_item_dedup_witness :
    record_item_exists [] "g1" = false ∧
    record_item_exists (create_record_item ⟨"g1", none⟩ []) "g1" = true ∧
    create_record_item ⟨"g1", none⟩ (create_record_item ⟨"g1", none⟩ []) =
      create_record_item ⟨"g1", none⟩ [] := by
  have h := record_item_dedup "g1" [] none
  exact ⟨h.1 (by simp), h.2.1, h.2.2⟩

/-! ### No summary attribute in create paths (claim C10) -/

theorem mem_optAttr_keys {name n : String} {v : Option AttrVal}
    (h : n ∈ (optAttr name v).map Prod.fst) : n = name := by
  cases v with
  | none => simp [optAttr] at h
  | some a => simpa [optAttr] using h

theorem summary_notin_executionItemRow (item : ExecutionItem) :
    "summary" ∉ (executionItemRow item).attrs.map Prod.fst := by
  rcases item with ⟨eid, g, tt, dd, ll, ss, tl, ty, pd⟩
  cases tt <;> cases dd <;> cases ll <;> cases tl <;> cases ty <;> cases pd <;>
    simp [executionItemRow, optAttr]

theorem runBatchChunks_requests_mem (env : Nat → List Row)
    (cs : List (List Row)) :
    ∀ (k : Nat) (t : Table), ∀ req ∈ (runBatchChunks env k t cs).requests,
      req ∈ cs := by
  induction cs with
  | nil => intro k t req h; simp [runBatchChunks] at h
  | cons c rest ih =>
    intro k t req h
    rw [runBatchChunks] at h
    by_cases he : (env k).isEmpty = true
    · simp only [he, if_true] at h
      rcases List.mem_cons.mp h with h | h
      · exact h ▸ List.mem_cons_self _ _
      · exact List.mem_cons_of_mem _ (ih (k + 1) _ req h)
    · simp only [he, if_false] at h
      rcases List.mem_cons.mp h with h | h
      · exact h ▸ List.mem_cons_self _ _
      · simp at h

/-- Claim C10 — even when an `ExecutionItem` carries `summary = some s`, the
row written by the single-item create has no `summary` attribute, and every
row of every bulk-write request issued by the batch create has no `summary`
attribute: only `update_execution_item_summary` ever writes that attribute. -/
theorem create_paths_write_no_summary (item : ExecutionItem) (s : String)
    (hsum : item.summary = some s) :
    ("summary" ∉ (executionItemRow item).attrs.map Prod.fst) ∧
    (∀ (t : Table) (env : Nat → List Row) (items : List ExecutionItem),
      ∀ req ∈ (create_execution_items env items t).requests,
      ∀ r ∈ req, "summary" ∉ r.attrs.map Prod.fst) := by
  refine ⟨summary_notin_executionItemRow item, ?_⟩
  intro t env items req hreq r hr
  have hcs : req ∈ (chunks25 items).map (fun c => c.map executionItemRow) :=
    runBatchChunks_requests_mem env _ 0 t req hreq
  obtain ⟨c, hc, rfl⟩ := List.mem_map.mp hcs
  obtain ⟨i, hi, rfl⟩ := List.mem_map.mp hr
  exact summary_notin_executionItemRow i

/-- Witness for C10 at an item whose `summary` is present. -/
theorem create_paths_write_no_summary_witness :
    "summary" ∉ (executionItemRow
      ⟨"e1", "g1", some "T", none, none, some "S", none, none, none⟩).attrs.map
        Prod.fst := by
  exact (create_paths_write_no_summary
    ⟨"e1", "g1", some "T", none, none, some "S", none, none, none⟩ "S" rfl).1

/-! ### Record-item key schema (claim C2) -/

/-- Evaluation for C2 at the failing input `guid = "run-1"`: the repository's
`create_record_item` writes the raw guid `"run-1"` as partition key — not
`"guid-run-1"` — so its partition key coincides with the partition key of an
`ExecutionItem` whose `execution_id` is `"run-1"`; meanwhile the record-stage
lambda writes the prefixed key `"guid-run-1"`, which the repository's
`record_item_exists` (reading the raw guid) then fails to find. -/
theorem record_item_key_mismatch :
    create_record_item ⟨"run-1", some "RecordItem"⟩ [] =
      [⟨"run-1", "A", [("_TYPE", AttrVal.S "RecordItem")]⟩] ∧
    ("run-1" : String) ≠ "guid-" ++ "run-1" ∧
    (executionItemRow ⟨"run-1", "item-7", none, none, none, none, none, none,
      none⟩).pk = "run-1" ∧
    update_dynamodb_put "run-1" [] = [⟨"guid-" ++ "run-1", "A", []⟩] ∧
    record_item_exists (update_dynamodb_put "run-1" []) "run-1" = false := by
  exact ⟨rfl, by decide, rfl, rfl, by decide⟩

end RssBlueskyBridge
